import Mathlib

/-!
Shallow embedding of the rhythm-timing classifier
`detect_rhythm_timing_from_beats` from
`src/songshare_analysis/essentia/rhythm.py`.

Real numbers are modelled by exact rationals.  The IEEE-754 special values
that the Python code can actually produce (the two infinities from the
`float("inf")` literal and from division, and NaN from `np.mod(x, 0)`,
`np.mean` of an empty array and arithmetic on NaN) are modelled explicitly
by the type `FVal`, so that the degenerate input paths of the source are
reproduced faithfully.  The one situation in which the Python function
raises — `np.minimum.reduce` over the empty list produced when
`subdivisions <= 0` — is modelled by returning `none`.
-/

namespace SongshareRhythm

/-- Model of the IEEE-754 double values reachable inside the classifier:
finite values (as exact rationals), the two infinities, and NaN. -/
inductive FVal where
  | fin (q : ℚ)
  | inf
  | ninf
  | nan
deriving DecidableEq, Repr

/-- IEEE addition on the modelled values (NaN propagates, inf + (-inf) = NaN). -/
def FVal.add : FVal → FVal → FVal
  | .nan, _ => .nan
  | _, .nan => .nan
  | .fin a, .fin b => .fin (a + b)
  | .fin _, .inf => .inf
  | .inf, .fin _ => .inf
  | .fin _, .ninf => .ninf
  | .ninf, .fin _ => .ninf
  | .inf, .inf => .inf
  | .ninf, .ninf => .ninf
  | .inf, .ninf => .nan
  | .ninf, .inf => .nan

/-- IEEE subtraction on the modelled values. -/
def FVal.sub : FVal → FVal → FVal
  | .nan, _ => .nan
  | _, .nan => .nan
  | .fin a, .fin b => .fin (a - b)
  | .fin _, .inf => .ninf
  | .fin _, .ninf => .inf
  | .inf, .fin _ => .inf
  | .ninf, .fin _ => .ninf
  | .inf, .inf => .nan
  | .ninf, .ninf => .nan
  | .inf, .ninf => .inf
  | .ninf, .inf => .ninf

/-- IEEE multiplication on the modelled values (0 * inf = NaN). -/
def FVal.mul : FVal → FVal → FVal
  | .nan, _ => .nan
  | _, .nan => .nan
  | .fin a, .fin b => .fin (a * b)
  | .fin a, .inf => if a = 0 then .nan else if 0 < a then .inf else .ninf
  | .inf, .fin a => if a = 0 then .nan else if 0 < a then .inf else .ninf
  | .fin a, .ninf => if a = 0 then .nan else if 0 < a then .ninf else .inf
  | .ninf, .fin a => if a = 0 then .nan else if 0 < a then .ninf else .inf
  | .inf, .inf => .inf
  | .ninf, .ninf => .inf
  | .inf, .ninf => .ninf
  | .ninf, .inf => .ninf

/-- IEEE division on the modelled values.  Finite / 0 gives a signed infinity
(0/0 gives NaN), matching numpy's warning-but-no-exception behaviour; signs of
the zero divisor are collapsed to +0, which is the only zero ℚ can express. -/
def FVal.div : FVal → FVal → FVal
  | .nan, _ => .nan
  | _, .nan => .nan
  | .fin a, .fin b =>
      if b = 0 then (if a = 0 then .nan else if 0 < a then .inf else .ninf)
      else .fin (a / b)
  | .fin _, .inf => .fin 0
  | .fin _, .ninf => .fin 0
  | .inf, .fin b => if 0 ≤ b then .inf else .ninf
  | .ninf, .fin b => if 0 ≤ b then .ninf else .inf
  | .inf, .inf => .nan
  | .inf, .ninf => .nan
  | .ninf, .inf => .nan
  | .ninf, .ninf => .nan

/-- IEEE absolute value on the modelled values. -/
def FVal.abs : FVal → FVal
  | .fin a => .fin |a|
  | .inf => .inf
  | .ninf => .inf
  | .nan => .nan

/-- IEEE comparison `a <= b` (any comparison with NaN is false). -/
def FVal.leb : FVal → FVal → Bool
  | .nan, _ => false
  | _, .nan => false
  | .fin a, .fin b => decide (a ≤ b)
  | .fin _, .inf => true
  | .inf, .fin _ => false
  | .inf, .inf => true
  | .ninf, _ => true
  | .fin _, .ninf => false
  | .inf, .ninf => false

/-- IEEE comparison `a < b` (any comparison with NaN is false). -/
def FVal.ltb : FVal → FVal → Bool
  | .nan, _ => false
  | _, .nan => false
  | .fin a, .fin b => decide (a < b)
  | .fin _, .inf => true
  | .inf, _ => false
  | .ninf, .ninf => false
  | .ninf, _ => true
  | .fin _, .ninf => false

/-- Model of `np.minimum` (elementwise minimum, NaN propagates). -/
def FVal.minF : FVal → FVal → FVal
  | .nan, _ => .nan
  | _, .nan => .nan
  | a, b => if a.leb b then a else b

/-- Model of `np.maximum` (elementwise maximum, NaN propagates). -/
def FVal.maxF : FVal → FVal → FVal
  | .nan, _ => .nan
  | _, .nan => .nan
  | a, b => if a.leb b then b else a

/-- Model of Python's builtin `max(a, b)`: returns `b` exactly when `b > a`
(so `max(a, nan) = a`, unlike `np.maximum`). -/
def pyMax (a b : FVal) : FVal := if a.ltb b then b else a

/-- Model of `np.clip(x, lo, hi)` = `np.minimum(np.maximum(x, lo), hi)`. -/
def npClip (x lo hi : FVal) : FVal := FVal.minF (FVal.maxF x lo) hi

/-- Model of `np.mod` on scalars: NaN when the divisor is zero or either
argument is NaN, otherwise `x - y * floor(x / y)` (result sign follows the
divisor, as in numpy).  An infinite divisor with a finite dividend keeps the
dividend when the signs agree, as in numpy; these rows are unreachable in the
classifier because the divisor there is a mean of finitely many rationals. -/
def npModF : FVal → FVal → FVal
  | .fin x, .fin y => if y = 0 then .nan else .fin (x - y * (⌊x / y⌋ : ℚ))
  | .fin x, .inf => if 0 ≤ x then .fin x else .inf
  | .fin x, .ninf => if x ≤ 0 then .fin x else .ninf
  | _, _ => .nan

/-- Model of `np.diff`: forward differences of consecutive elements. -/
def npDiff (l : List ℚ) : List ℚ := List.zipWith (fun a b => b - a) l l.tail

/-- Model of `np.mean` on a float array of rationals: NaN on the empty array,
otherwise the exact arithmetic mean. -/
def npMean (l : List ℚ) : FVal :=
  match l with
  | [] => FVal.nan
  | _ => FVal.fin (l.sum / (l.length : ℚ))

/-- Insert a rational into an already ascending list, keeping it ascending. -/
def insertAsc (x : ℚ) : List ℚ → List ℚ
  | [] => [x]
  | y :: ys => if x ≤ y then x :: y :: ys else y :: insertAsc x ys

/-- Ascending insertion sort, modelling the sort inside `np.median`. -/
def sortAsc : List ℚ → List ℚ
  | [] => []
  | x :: xs => insertAsc x (sortAsc xs)

/-- Model of `np.median`: NaN on the empty array; the middle element of the
sorted array for odd length, the average of the two middle elements for even
length. -/
def npMedian (l : List ℚ) : FVal :=
  match l with
  | [] => FVal.nan
  | _ =>
    let s := sortAsc l
    let n := l.length
    if n % 2 = 1 then FVal.fin (s.getD (n / 2) 0)
    else FVal.fin ((s.getD (n / 2 - 1) 0 + s.getD (n / 2) 0) / 2)

/-- Model of `np.minimum.reduce` on a nonempty list (a left fold of
`np.minimum`).  On the empty list numpy raises; the classifier model returns
`none` before ever reducing an empty list, so the `[]` row is unreachable. -/
def npMinReduce : List FVal → FVal
  | [] => FVal.nan
  | x :: xs => xs.foldl FVal.minF x

/-- Source line `ibis = np.diff(beats_arr); mean_ibi = float(np.mean(ibis))`. -/
def meanIbi (beats : List ℚ) : FVal := npMean (npDiff beats)

/-- Source line `mad = float(np.median(np.abs(ibis - np.median(ibis))))`.
When the inner median is NaN (empty `ibis`) the subtraction array is empty as
well, so the outer median is NaN too; the second row returns NaN directly. -/
def madIbi (beats : List ℚ) : FVal :=
  match npMedian (npDiff beats) with
  | FVal.fin med => npMedian ((npDiff beats).map (fun x => |x - med|))
  | _ => FVal.nan

/-- Source lines `robust_std = 1.4826 * mad` and
`cv = robust_std / mean_ibi if mean_ibi > 0 else float("inf")`. -/
def cvOf (beats : List ℚ) : FVal :=
  if (FVal.fin 0).ltb (meanIbi beats) then
    FVal.div (FVal.mul (FVal.fin (14826 / 10000)) (madIbi beats)) (meanIbi beats)
  else FVal.inf

/-- Source line `grids = np.arange(subdivisions) / float(subdivisions)`. -/
def gridPhases (s : ℕ) : List ℚ := (List.range s).map (fun k : ℕ => (k : ℚ) / (s : ℚ))

/-- Per-beat value of the source's `sec_dist` array:
`phases = np.mod(beats_arr, beat_period) / beat_period`,
`frac_dist = np.minimum.reduce([np.abs(phases - g) for g in grids])`,
`frac_dist = np.minimum(frac_dist, 1 - frac_dist)`,
`sec_dist = frac_dist * beat_period`, all of which are elementwise in the
beat index. -/
def secDistOf (beats : List ℚ) (s : ℕ) (t : ℚ) : FVal :=
  let beat_period := meanIbi beats
  let phase := FVal.div (npModF (FVal.fin t) beat_period) beat_period
  let fd := npMinReduce ((gridPhases s).map (fun g => FVal.abs (FVal.sub phase (FVal.fin g))))
  let fd2 := FVal.minF fd (FVal.sub (FVal.fin 1) fd)
  FVal.mul fd2 beat_period

/-- Source line `quant_score = float(np.mean(sec_dist <= quant_tol_sec))`:
the fraction of beats whose `sec_dist` entry compares `<=` the tolerance
(comparisons against NaN entries are false); NaN when there are no beats,
because `np.mean` of an empty boolean array is NaN. -/
def quantScoreOf (beats : List ℚ) (s : ℕ) (tol : ℚ) : FVal :=
  match beats with
  | [] => FVal.nan
  | _ =>
    FVal.fin (((beats.countP (fun t => (secDistOf beats s t).leb (FVal.fin tol))) : ℚ)
      / (beats.length : ℚ))

/-- Source line `cv_score = max(0.0, (0.02 - cv) / 0.02)` (Python builtin
`max`, not `np.maximum`). -/
def cvScoreOf (beats : List ℚ) : FVal :=
  pyMax (FVal.fin 0)
    (FVal.div (FVal.sub (FVal.fin (2 / 100)) (cvOf beats)) (FVal.fin (2 / 100)))

/-- Source line `combined = 0.6 * cv_score + 0.4 * quant_score`. -/
def combinedOf (beats : List ℚ) (s : ℕ) (tol : ℚ) : FVal :=
  FVal.add (FVal.mul (FVal.fin (6 / 10)) (cvScoreOf beats))
    (FVal.mul (FVal.fin (4 / 10)) (quantScoreOf beats s tol))

/-- Source line `confidence = float(np.clip(combined, 0.0, 1.0))`. -/
def confidenceOf (beats : List ℚ) (s : ℕ) (tol : ℚ) : FVal :=
  npClip (combinedOf beats s tol) (FVal.fin 0) (FVal.fin 1)

/-- Source lines deciding the label from the confidence (NaN confidence takes
neither threshold branch and falls through to "uncertain"). -/
def labelOf (conf : FVal) : String :=
  if (FVal.fin (6 / 10)).leb conf then "clicktrack"
  else if conf.leb (FVal.fin (4 / 10)) then "human"
  else "uncertain"

/-- Source line `bpm = 60.0 / mean_ibi if mean_ibi > 0 else None`. -/
def bpmOf (beats : List ℚ) : Option FVal :=
  if (FVal.fin 0).ltb (meanIbi beats) then some (FVal.div (FVal.fin 60) (meanIbi beats))
  else none

/-- Left-pad a string with zeros to the given length. -/
def padZeros (k : ℕ) (s : String) : String :=
  String.mk (List.replicate (k - s.length) '0') ++ s

/-- Render a natural number that is a value scaled by `10 ^ prec` as a
fixed-point decimal string with `prec` digits after the point. -/
def fmtScaled (prec : ℕ) (n : ℕ) : String :=
  toString (n / 10 ^ prec) ++ "." ++ padZeros prec (toString (n % 10 ^ prec))

/-- Round a rational to the nearest integer, ties to even, as Python's
fixed-point float formatting does. -/
def roundHalfEven (x : ℚ) : ℤ :=
  let fl := ⌊x⌋
  let fr := x - (fl : ℚ)
  if 1 / 2 < fr then fl + 1
  else if fr < 1 / 2 then fl
  else if fl % 2 = 0 then fl else fl + 1

/-- Model of Python's fixed-point format for a finite value. -/
def fmtFixed (prec : ℕ) (q : ℚ) : String :=
  let core := fmtScaled prec (roundHalfEven (|q| * 10 ^ prec)).toNat
  if q < 0 then "-" ++ core else core

/-- Model of Python's fixed-point format on the modelled values. -/
def FVal.fmt (prec : ℕ) : FVal → String
  | .fin q => fmtFixed prec q
  | .inf => "inf"
  | .ninf => "-inf"
  | .nan => "nan"

/-- Source line building the reason string. -/
def reasonOf (beats : List ℚ) (s : ℕ) (tol : ℚ) : String :=
  "cv=" ++ (cvOf beats).fmt 5 ++ ",quant=" ++ (quantScoreOf beats s tol).fmt 3

/-- The returned record of `detect_rhythm_timing_from_beats`. -/
structure TimingResult where
  label : String
  confidence : FVal
  reason : String
  bpm : Option FVal
  beat_cv : Option FVal
  quant_score : Option FVal
  n_beats : ℕ
deriving DecidableEq, Repr

/-- Embedding of `detect_rhythm_timing_from_beats`.  `none` models the one
raising path: past the short-beat guard with `subdivisions <= 0`
(`np.minimum.reduce` over an empty list raises a `ValueError`); negative
`subdivisions` behave like `0` there, so the parameter is a natural number. -/
def detect_rhythm_timing_from_beats (beats : List ℚ) (subdivisions : ℕ)
    (quant_tol_sec : ℚ) ( min_beats : ℕ) : Option TimingResult :=
  if beats.length < min_beats then
    some ⟨"uncertain", FVal.fin 0, "too_few_beats", none, none, none, beats.length⟩
  else if subdivisions = 0 then
    none
  else
    some ⟨labelOf (confidenceOf beats subdivisions quant_tol_sec),
      confidenceOf beats subdivisions quant_tol_sec,
      reasonOf beats subdivisions quant_tol_sec,
      bpmOf beats,
      some (cvOf beats),
      some (quantScoreOf beats subdivisions quant_tol_sec),
      beats.length⟩

/-- Minimum of a list of rationals (`0` on the empty list, which is never
reached below because the grid is nonempty whenever it is used). -/
def minListQ : List ℚ → ℚ
  | [] => 0
  | x :: xs => xs.foldl min x

/-- Formalisation of claim C1's wording: the circular (wrap-around) distance
from a phase to the nearest grid point, i.e. the minimum over all grid points
`g` of `min |ph - g| (1 - |ph - g|)`. -/
def specCircFracDist (s : ℕ) (ph : ℚ) : ℚ :=
  minListQ ((gridPhases s).map (fun g => min |ph - g| (1 - |ph - g|)))

/-- Formalisation of claim C1's wording for the whole score: the fraction of
beats whose circular fractional distance, converted to seconds by multiplying
by the beat period `T`, is at most the tolerance. -/
def specQuantScore (beats : List ℚ) (s : ℕ) (tol T : ℚ) : ℚ :=
  ((beats.countP (fun t =>
      decide (specCircFracDist s ((t - T * (⌊t / T⌋ : ℚ)) / T) * T ≤ tol))) : ℚ)
    / (beats.length : ℚ)

/-- The amended per-beat fractional distance actually computed by the source:
first the plain minimum `d` over grid points of `|ph - g|`, then the wrap
correction `min d (1 - d)` applied to that minimum. -/
def amendedFracDist (s : ℕ) (ph : ℚ) : ℚ :=
  let d := minListQ ((gridPhases s).map (fun g => |ph - g|))
  min d (1 - d)

/-- The amended quantization score: fraction of beats whose amended
fractional distance times the beat period is at most the tolerance. -/
def amendedQuantScore (beats : List ℚ) (s : ℕ) (tol T : ℚ) : ℚ :=
  ((beats.countP (fun t =>
      decide (amendedFracDist s ((t - T * (⌊t / T⌋ : ℚ)) / T) * T ≤ tol))) : ℚ)
    / (beats.length : ℚ)

theorem FVal.add_fin (a b : ℚ) : FVal.add (.fin a) (.fin b) = .fin (a + b) := rfl

theorem FVal.sub_fin (a b : ℚ) : FVal.sub (.fin a) (.fin b) = .fin (a - b) := rfl

theorem FVal.mul_fin (a b : ℚ) : FVal.mul (.fin a) (.fin b) = .fin (a * b) := rfl

theorem FVal.abs_fin (a : ℚ) : FVal.abs (.fin a) = .fin |a| := rfl

theorem FVal.div_fin (a b : ℚ) (h : b ≠ 0) :
    FVal.div (.fin a) (.fin b) = .fin (a / b) := by
  simp [FVal.div, h]

theorem FVal.leb_fin (a b : ℚ) : (FVal.fin a).leb (.fin b) = decide (a ≤ b) := rfl

theorem FVal.ltb_fin (a b : ℚ) : (FVal.fin a).ltb (.fin b) = decide (a < b) := rfl

theorem FVal.minF_fin (a b : ℚ) : FVal.minF (.fin a) (.fin b) = .fin (min a b) := by
  by_cases h : a ≤ b <;> simp [FVal.minF, FVal.leb, h, min_def]

theorem FVal.maxF_fin (a b : ℚ) : FVal.maxF (.fin a) (.fin b) = .fin (max a b) := by
  by_cases h : a ≤ b <;> simp [FVal.maxF, FVal.leb, h, max_def]

/-- A true `fin a <= v` comparison forces `v` to be `inf` or a finite value
at least `a`. -/
theorem leb_fin_left {a : ℚ} {v : FVal} (h : (FVal.fin a).leb v = true) :
    v = FVal.inf ∨ ∃ c, v = FVal.fin c ∧ a ≤ c := by
  cases v with
  | fin c => exact Or.inr ⟨c, rfl, by simpa [FVal.leb] using h⟩
  | inf => exact Or.inl rfl
  | ninf => simp [FVal.leb] at h
  | nan => simp [FVal.leb] at h

/-- A true `v <= fin a` comparison forces `v` to be `ninf` or a finite value
at most `a`. -/
theorem leb_fin_right {a : ℚ} {v : FVal} (h : v.leb (FVal.fin a) = true) :
    v = FVal.ninf ∨ ∃ c, v = FVal.fin c ∧ c ≤ a := by
  cases v with
  | fin c => exact Or.inr ⟨c, rfl, by simpa [FVal.leb] using h⟩
  | inf => simp [FVal.leb] at h
  | ninf => exact Or.inl rfl
  | nan => simp [FVal.leb] at h

/-- A true `fin a < v` comparison forces `v` to be `inf` or a finite value
strictly above `a`. -/
theorem ltb_fin_left {a : ℚ} {v : FVal} (h : (FVal.fin a).ltb v = true) :
    v = FVal.inf ∨ ∃ c, v = FVal.fin c ∧ a < c := by
  cases v with
  | fin c => exact Or.inr ⟨c, rfl, by simpa [FVal.ltb] using h⟩
  | inf => exact Or.inl rfl
  | ninf => simp [FVal.ltb] at h
  | nan => simp [FVal.ltb] at h

/-- `np.mean` returns NaN or a finite value, never an infinity. -/
theorem npMean_cases (l : List ℚ) :
    npMean l = FVal.nan ∨ ∃ q, npMean l = FVal.fin q := by
  cases l with
  | nil => exact Or.inl rfl
  | cons x xs => exact Or.inr ⟨_, rfl⟩

theorem npMean_of_ne_nil {l : List ℚ} (h : l ≠ []) :
    npMean l = FVal.fin (l.sum / (l.length : ℚ)) := by
  cases l with
  | nil => exact absurd rfl h
  | cons x xs => rfl

theorem npMean_fin_ne_nil {l : List ℚ} {q : ℚ} (h : npMean l = FVal.fin q) :
    l ≠ [] := by
  intro hnil
  subst hnil
  exact FVal.noConfusion h

/-- `np.median` returns NaN or a finite value, never an infinity. -/
theorem npMedian_cases (l : List ℚ) :
    npMedian l = FVal.nan ∨ ∃ q, npMedian l = FVal.fin q := by
  cases l with
  | nil => exact Or.inl rfl
  | cons x xs =>
      refine Or.inr ?_
      simp only [npMedian]
      split
      · exact ⟨_, rfl⟩
      · exact ⟨_, rfl⟩

theorem npMedian_fin_of_ne_nil {l : List ℚ} (h : l ≠ []) :
    ∃ q, npMedian l = FVal.fin q := by
  rcases npMedian_cases l with hc | hc
  · cases l with
    | nil => exact absurd rfl h
    | cons x xs => simp only [npMedian] at hc; split at hc <;> exact FVal.noConfusion hc
  · exact hc

theorem getD_nonneg {l : List ℚ} (h : ∀ x ∈ l, 0 ≤ x) (i : ℕ) : 0 ≤ l.getD i 0 := by
  induction l generalizing i with
  | nil => simp [List.getD]
  | cons x xs ih =>
      cases i with
      | zero => exact h x (List.mem_cons_self _ _)
      | succ j => exact ih (fun y hy => h y (List.mem_cons_of_mem _ hy)) j

theorem insertAsc_forall {P : ℚ → Prop} {a : ℚ} {l : List ℚ} (ha : P a)
    (hl : ∀ x ∈ l, P x) : ∀ x ∈ insertAsc a l, P x := by
  induction l with
  | nil => simpa [insertAsc] using ha
  | cons y ys ih =>
      intro x hx
      simp only [insertAsc] at hx
      split at hx
      · rw [List.mem_cons] at hx
        rcases hx with rfl | hx
        · exact ha
        · exact hl x hx
      · rw [List.mem_cons] at hx
        rcases hx with rfl | hx
        · exact hl x (List.mem_cons_self _ _)
        · exact ih (fun z hz => hl z (List.mem_cons_of_mem _ hz)) x hx

theorem sortAsc_forall {P : ℚ → Prop} {l : List ℚ}
    (hl : ∀ x ∈ l, P x) : ∀ x ∈ sortAsc l, P x := by
  induction l with
  | nil => simp [sortAsc]
  | cons y ys ih =>
      exact insertAsc_forall (hl y (List.mem_cons_self _ _))
        (ih (fun z hz => hl z (List.mem_cons_of_mem _ hz)))

/-- The median of a nonempty list of nonnegative rationals is finite and
nonnegative. -/
theorem npMedian_nonneg {l : List ℚ} (h : l ≠ []) (hn : ∀ x ∈ l, 0 ≤ x) :
    ∃ q, npMedian l = FVal.fin q ∧ 0 ≤ q := by
  have hs : ∀ x ∈ sortAsc l, 0 ≤ x := sortAsc_forall hn
  have hgd : ∀ i, 0 ≤ (sortAsc l).getD i 0 := getD_nonneg hs
  cases l with
  | nil => exact absurd rfl h
  | cons x xs =>
      simp only [npMedian]
      split
      · exact ⟨_, rfl, hgd _⟩
      · refine ⟨_, rfl, ?_⟩
        have := hgd ((x :: xs).length / 2 - 1)
        have := hgd ((x :: xs).length / 2)
        positivity

/-- The mad is NaN or finite, never infinite. -/
theorem madIbi_cases (beats : List ℚ) :
    madIbi beats = FVal.nan ∨ ∃ q, madIbi beats = FVal.fin q := by
  unfold madIbi
  split
  · exact npMedian_cases _
  · exact Or.inl rfl

/-- The cv is infinite, NaN, or finite — never negative infinity. -/
theorem cvOf_cases (beats : List ℚ) :
    cvOf beats = FVal.inf ∨ cvOf beats = FVal.nan ∨ ∃ c, cvOf beats = FVal.fin c := by
  unfold cvOf
  split
  · rename_i hlt
    rcases ltb_fin_left hlt with hv | ⟨μ, hv, hμ⟩
    · rcases npMean_cases (npDiff beats) with hm | ⟨q, hm⟩ <;>
        simp [meanIbi] at hv <;> rw [hm] at hv <;> exact FVal.noConfusion hv
    · rw [meanIbi] at hv ⊢
      rw [hv]
      rcases madIbi_cases beats with hmad | ⟨d, hmad⟩ <;> rw [hmad]
      · exact Or.inr (Or.inl rfl)
      · rw [FVal.mul_fin, FVal.div_fin _ _ (ne_of_gt hμ)]
        exact Or.inr (Or.inr ⟨_, rfl⟩)
  · exact Or.inl rfl

theorem FVal.sub_fin_inf (a : ℚ) : FVal.sub (.fin a) .inf = .ninf := rfl

theorem FVal.sub_fin_nan (a : ℚ) : FVal.sub (.fin a) .nan = .nan := rfl

theorem FVal.div_ninf_fin (b : ℚ) (h : 0 ≤ b) : FVal.div .ninf (.fin b) = .ninf := by
  simp [FVal.div, h]

theorem FVal.div_nan_fin (b : ℚ) : FVal.div .nan (.fin b) = .nan := rfl

theorem pyMax_fin_ninf (a : ℚ) : pyMax (.fin a) .ninf = .fin a := rfl

theorem pyMax_fin_nan (a : ℚ) : pyMax (.fin a) .nan = .fin a := rfl

/-- The cv score is always finite and nonnegative. -/
theorem cvScoreOf_fin_nonneg (beats : List ℚ) :
    ∃ x, cvScoreOf beats = FVal.fin x ∧ 0 ≤ x := by
  unfold cvScoreOf
  rcases cvOf_cases beats with h | h | ⟨c, h⟩ <;> rw [h]
  · rw [FVal.sub_fin_inf, FVal.div_ninf_fin _ (by norm_num), pyMax_fin_ninf]
    exact ⟨0, rfl, le_refl 0⟩
  · rw [FVal.sub_fin_nan, FVal.div_nan_fin, pyMax_fin_nan]
    exact ⟨0, rfl, le_refl 0⟩
  · rw [FVal.sub_fin, FVal.div_fin _ _ (by norm_num)]
    unfold pyMax
    rw [FVal.ltb_fin]
    by_cases hx : (0 : ℚ) < (2 / 100 - c) / (2 / 100)
    · rw [decide_eq_true hx, if_pos rfl]
      exact ⟨_, rfl, le_of_lt hx⟩
    · rw [decide_eq_false hx]
      simp only [Bool.false_eq_true, if_false]
      exact ⟨0, rfl, le_refl 0⟩

/-- For a nonempty beat list the quantization score is a finite fraction in
[0, 1]. -/
theorem quantScoreOf_fin (beats : List ℚ) (s : ℕ) (tol : ℚ) (h : beats ≠ []) :
    ∃ q, quantScoreOf beats s tol = FVal.fin q ∧ 0 ≤ q ∧ q ≤ 1 := by
  cases beats with
  | nil => exact absurd rfl h
  | cons x xs =>
      have hlen : (0 : ℚ) < ((x :: xs).length : ℚ) := by
        exact_mod_cast Nat.succ_pos xs.length
      refine ⟨_, rfl, ?_, ?_⟩
      · exact div_nonneg (Nat.cast_nonneg _) (le_of_lt hlen)
      · rw [div_le_one hlen]
        exact_mod_cast List.countP_le_length _

theorem npClip_fin_eq (y : ℚ) :
    npClip (.fin y) (.fin 0) (.fin 1) = .fin (min (max y 0) 1) := by
  unfold npClip
  rw [FVal.maxF_fin, FVal.minF_fin]

theorem npClip_inf_eq : npClip .inf (.fin 0) (.fin 1) = .fin 1 := by
  simp [npClip, FVal.maxF, FVal.minF, FVal.leb]

theorem npClip_ninf_eq : npClip .ninf (.fin 0) (.fin 1) = .fin 0 := by
  simp [npClip, FVal.maxF, FVal.minF, FVal.leb]

theorem npClip_nan_eq : npClip .nan (.fin 0) (.fin 1) = .nan := rfl

/-- Clipping to [0, 1] yields NaN (only from NaN input) or a finite value in
[0, 1]. -/
theorem npClip_cases (x : FVal) :
    npClip x (FVal.fin 0) (FVal.fin 1) = FVal.nan ∨
      ∃ c, npClip x (FVal.fin 0) (FVal.fin 1) = FVal.fin c ∧ 0 ≤ c ∧ c ≤ 1 := by
  cases x with
  | fin y =>
      refine Or.inr ⟨min (max y 0) 1, npClip_fin_eq y, ?_, min_le_right _ _⟩
      exact le_min (le_max_right y 0) zero_le_one
  | inf => exact Or.inr ⟨1, npClip_inf_eq, zero_le_one, le_refl 1⟩
  | ninf => exact Or.inr ⟨0, npClip_ninf_eq, le_refl 0, zero_le_one⟩
  | nan => exact Or.inl rfl

/-- The confidence is NaN or a finite value in [0, 1]. -/
theorem confidenceOf_cases (beats : List ℚ) (s : ℕ) (tol : ℚ) :
    confidenceOf beats s tol = FVal.nan ∨
      ∃ c, confidenceOf beats s tol = FVal.fin c ∧ 0 ≤ c ∧ c ≤ 1 :=
  npClip_cases _

/-- For a nonempty beat list the confidence is a finite value in [0, 1]. -/
theorem confidenceOf_fin (beats : List ℚ) (s : ℕ) (tol : ℚ) (h : beats ≠ []) :
    ∃ c, confidenceOf beats s tol = FVal.fin c ∧ 0 ≤ c ∧ c ≤ 1 := by
  rcases cvScoreOf_fin_nonneg beats with ⟨x, hx, hx0⟩
  rcases quantScoreOf_fin beats s tol h with ⟨q, hq, hq0, hq1⟩
  rcases confidenceOf_cases beats s tol with hc | hc
  · unfold confidenceOf combinedOf at hc
    rw [hx, hq, FVal.mul_fin, FVal.mul_fin, FVal.add_fin, npClip_fin_eq] at hc
    exact FVal.noConfusion hc
  · exact hc

/-- The label "clicktrack" is only assigned when `0.6 <= confidence` holds as
a float comparison. -/
theorem labelOf_clicktrack {conf : FVal} (h : labelOf conf = "clicktrack") :
    (FVal.fin (6 / 10)).leb conf = true := by
  unfold labelOf at h
  split at h
  · assumption
  · split at h <;> exact absurd h (by decide)

/-- The label "human" is only assigned when `confidence <= 0.4` holds as a
float comparison. -/
theorem labelOf_human {conf : FVal} (h : labelOf conf = "human") :
    conf.leb (FVal.fin (4 / 10)) = true := by
  unfold labelOf at h
  split at h
  · exact absurd h (by decide)
  · split at h
    · assumption
    · exact absurd h (by decide)

/-- Claim C3: for fewer than `min_beats` beats the function returns exactly
the label "uncertain", confidence 0, reason "too_few_beats", no bpm, no
beat_cv, no quant_score, and `n_beats` equal to the input length. -/
theorem claim_C3 (beats : List ℚ) (s : ℕ) (tol : ℚ) (m : ℕ)
    (h : beats.length < m) :
    detect_rhythm_timing_from_beats beats s tol m =
      some ⟨"uncertain", FVal.fin 0, "too_few_beats", none, none, none, beats.length⟩ := by
  simp [detect_rhythm_timing_from_beats, h]

/-- Witness for claim C3 at the empty beat list with the default parameters. -/
theorem claim_C3_witness :
    detect_rhythm_timing_from_beats [] 16 (1 / 100) 8 =
      some ⟨"uncertain", FVal.fin 0, "too_few_beats", none, none, none, 0⟩ :=
  claim_C3 [] 16 (1 / 100) 8 (by decide)

/-- Claim C4: under the default parameters the function returns a record for
every input beat list; no input reaches the raising path. -/
theorem claim_C4 (beats : List ℚ) :
    (detect_rhythm_timing_from_beats beats 16 (1 / 100) 8).isSome = true := by
  unfold detect_rhythm_timing_from_beats
  split
  · rfl
  · simp

/-- Claim C8: the classifier is deterministic; two invocations on identical
input produce identical records (the embedding is a pure function). -/
theorem claim_C8 (beats : List ℚ) (s : ℕ) (tol : ℚ) (m : ℕ) :
    detect_rhythm_timing_from_beats beats s tol m =
      detect_rhythm_timing_from_beats beats s tol m := rfl

set_option maxRecDepth 8000 in
/-- Claim C6: on the exact 120 BPM metronome grid of 16 beats spaced 0.5 s the
result has 16 beats, label "clicktrack", beat_cv below 0.001, quant_score 1,
and confidence above 0.9. -/
theorem claim_C6 :
    ∃ r, detect_rhythm_timing_from_beats
        ((List.range 16).map (fun i : ℕ => (i : ℚ) * (5 / 10))) 16 (1 / 100) 8 = some r ∧
      r.n_beats = 16 ∧ r.label = "clicktrack" ∧
      (∃ c, r.beat_cv = some (FVal.fin c) ∧ c < 1 / 1000) ∧
      r.quant_score = some (FVal.fin 1) ∧
      (∃ c, r.confidence = FVal.fin c ∧ 9 / 10 < c) := by
  refine ⟨⟨"clicktrack", FVal.fin 1, "cv=0.00000,quant=1.000", some (FVal.fin 120),
    some (FVal.fin 0), some (FVal.fin 1), 16⟩, by with_unfolding_all rfl, rfl, rfl,
    ⟨0, rfl, by norm_num⟩, rfl, ⟨1, rfl, by norm_num⟩⟩

set_option maxRecDepth 8000 in
/-- Counterexample to claim C1: for the beats `[0, 0.995, 2, 3, 4, 5, 6, 7]`
(mean inter-beat interval exactly 1) the beat at 0.995 has phase 0.995; the
source measures it against the nearest grid point by absolute distance
(15/16, giving 23/400 ≈ 0.0575 s, off grid), while the claim's circular
distance wraps to grid point 0 (1/200 = 0.005 s, on grid), so the source's
quant_score is 7/8 while the claimed formula yields 1. -/
theorem claim_C1_counterexample :
    meanIbi [0, 199 / 200, 2, 3, 4, 5, 6, 7] = FVal.fin 1 ∧
    secDistOf [0, 199 / 200, 2, 3, 4, 5, 6, 7] 16 (199 / 200) = FVal.fin (23 / 400) ∧
    specCircFracDist 16 (199 / 200) * 1 = 1 / 200 ∧
    (23 / 400 : ℚ) ≠ 1 / 200 ∧
    quantScoreOf [0, 199 / 200, 2, 3, 4, 5, 6, 7] 16 (1 / 100) = FVal.fin (7 / 8) ∧
    specQuantScore [0, 199 / 200, 2, 3, 4, 5, 6, 7] 16 (1 / 100) 1 = 1 :=
  ⟨by with_unfolding_all rfl, by with_unfolding_all rfl, by with_unfolding_all rfl,
    by norm_num, by with_unfolding_all rfl, by with_unfolding_all rfl⟩

set_option maxRecDepth 8000 in
/-- Counterexample to claim C2: a strictly decreasing beat list yields label
"human" with confidence exactly 0.4 (so "human" does occur with confidence
at least 0.4), and a constructed list with exact confidence 0.6 yields label
"clicktrack" (so "clicktrack" does occur with confidence at most 0.6). -/
theorem claim_C2_counterexample :
    (detect_rhythm_timing_from_beats [7, 6, 5, 4, 3, 2, 1, 0] 16 (1 / 100) 8).map
        (fun r => (r.label, r.confidence)) = some ("human", FVal.fin (2 / 5)) ∧
    (4 / 10 : ℚ) ≤ 2 / 5 ∧
    (detect_rhythm_timing_from_beats
        [0, 1 - 125 / 22239, 2, 3 - 125 / 22239, 4, 5 - 125 / 22239, 6, 7]
        16 (1 / 100) 8).map
        (fun r => (r.label, r.confidence)) = some ("clicktrack", FVal.fin (3 / 5)) ∧
    (3 / 5 : ℚ) ≤ 6 / 10 :=
  ⟨by with_unfolding_all rfl, by norm_num, by with_unfolding_all rfl, by norm_num⟩

set_option maxRecDepth 8000 in
/-- Counterexample to claim C7: with `min_beats = 0` the empty beat list
passes the guard, `np.mean` of the empty interval and boolean arrays is NaN,
and the returned confidence and quant_score are NaN — not numbers in [0, 1]. -/
theorem claim_C7_counterexample :
    (detect_rhythm_timing_from_beats [] 16 (1 / 100) 0).map
      (fun r => (r.confidence, r.quant_score)) = some (FVal.nan, some FVal.nan) := by
  with_unfolding_all rfl

/-- Amended claim C2: the thresholds are strict on the outside — no input
yields label "clicktrack" with confidence strictly below 0.6 and none yields
label "human" with confidence strictly above 0.4; both boundary values are
attainable (see the counterexample), with "clicktrack" at exactly 0.6 and
"human" at exactly 0.4. -/
theorem claim_C2_amended (beats : List ℚ) (s : ℕ) (tol : ℚ) (m : ℕ) (r : TimingResult)
    (h : detect_rhythm_timing_from_beats beats s tol m = some r) :
    (r.label = "clicktrack" → ∃ c, r.confidence = FVal.fin c ∧ 6 / 10 ≤ c) ∧
    (r.label = "human" → ∃ c, r.confidence = FVal.fin c ∧ c ≤ 4 / 10) := by
  unfold detect_rhythm_timing_from_beats at h
  split at h
  · rw [Option.some.injEq] at h
    subst h
    constructor <;> intro hl <;> simp at hl
  · split at h
    · exact Option.noConfusion h
    · rw [Option.some.injEq] at h
      subst h
      constructor
      · intro hl
        have hleb := labelOf_clicktrack hl
        rcases leb_fin_left hleb with hinf | ⟨c, hc, hge⟩
        · rcases confidenceOf_cases beats s tol with hcc | ⟨c, hcc, _⟩ <;>
            rw [hinf] at hcc <;> exact FVal.noConfusion hcc
        · exact ⟨c, hc, hge⟩
      · intro hl
        have hleb := labelOf_human hl
        rcases leb_fin_right hleb with hninf | ⟨c, hc, hle⟩
        · rcases confidenceOf_cases beats s tol with hcc | ⟨c, hcc, _⟩ <;>
            rw [hninf] at hcc <;> exact FVal.noConfusion hcc
        · exact ⟨c, hc, hle⟩

set_option maxRecDepth 8000 in
/-- Witness for the amended claim C2: on the 16-beat metronome grid the label
is "clicktrack" and the confidence is a finite value at least 0.6. -/
theorem claim_C2_amended_witness :
    ∃ c, FVal.fin 1 = FVal.fin c ∧ (6 : ℚ) / 10 ≤ c := by
  have h := (claim_C2_amended ((List.range 16).map (fun i : ℕ => (i : ℚ) * (5 / 10)))
    16 (1 / 100) 8
    ⟨"clicktrack", FVal.fin 1, "cv=0.00000,quant=1.000", some (FVal.fin 120),
      some (FVal.fin 0), some (FVal.fin 1), 16⟩ (by with_unfolding_all rfl)).1 rfl
  exact h

/-- Amended claim C7: for every input whose beat list is nonempty or whose
`min_beats` is positive (ruling out only the empty-list-past-the-guard case
where numpy's mean of an empty array makes the result NaN), the returned
confidence is a finite value in [0, 1], and so is the quantization score
whenever it is present. -/
theorem claim_C7_amended (beats : List ℚ) (s : ℕ) (tol : ℚ) (m : ℕ) (r : TimingResult)
    (hnz : beats ≠ [] ∨ 0 < m)
    (h : detect_rhythm_timing_from_beats beats s tol m = some r) :
    (∃ c, r.confidence = FVal.fin c ∧ 0 ≤ c ∧ c ≤ 1) ∧
    (∀ v, r.quant_score = some v → ∃ x, v = FVal.fin x ∧ 0 ≤ x ∧ x ≤ 1) := by
  unfold detect_rhythm_timing_from_beats at h
  split at h
  · rw [Option.some.injEq] at h
    subst h
    refine ⟨⟨0, rfl, le_refl 0, zero_le_one⟩, ?_⟩
    intro v hv
    exact Option.noConfusion hv
  · rename_i hge
    split at h
    · exact Option.noConfusion h
    · rw [Option.some.injEq] at h
      subst h
      have hne : beats ≠ [] := by
        rcases hnz with hne | hm
        · exact hne
        · intro hnil
          subst hnil
          exact hge (by simpa using hm)
      rcases confidenceOf_fin beats s tol hne with ⟨c, hc, h0, h1⟩
      rcases quantScoreOf_fin beats s tol hne with ⟨q, hq, hq0, hq1⟩
      refine ⟨⟨c, hc, h0, h1⟩, ?_⟩
      intro v hv
      rw [Option.some.injEq] at hv
      subst hv
      exact ⟨q, hq, hq0, hq1⟩

set_option maxRecDepth 8000 in
/-- Witness for the amended claim C7: the strictly decreasing input returns a
finite confidence 0.4 inside the bounds. -/
theorem claim_C7_amended_witness :
    ∃ c, FVal.fin (2 / 5) = FVal.fin c ∧ 0 ≤ c ∧ c ≤ 1 := by
  have h := (claim_C7_amended [7, 6, 5, 4, 3, 2, 1, 0] 16 (1 / 100) 8
    ⟨"human", FVal.fin (2 / 5), "cv=inf,quant=1.000", none, some FVal.inf,
      some (FVal.fin 1), 8⟩ (Or.inr (by norm_num)) (by with_unfolding_all rfl)).1
  exact h

theorem FVal.minF_nan_left (x : FVal) : FVal.minF .nan x = .nan := by cases x <;> rfl

theorem foldl_minF_nan (l : List FVal) : l.foldl FVal.minF FVal.nan = FVal.nan := by
  induction l with
  | nil => rfl
  | cons x xs ih => rw [List.foldl_cons, FVal.minF_nan_left]; exact ih

theorem npMinReduce_nan_head (xs : List FVal) : npMinReduce (.nan :: xs) = .nan :=
  foldl_minF_nan xs

theorem FVal.mul_nan_left (v : FVal) : FVal.mul .nan v = .nan := by cases v <;> rfl

theorem FVal.mul_fin_nan (a : ℚ) : FVal.mul (.fin a) .nan = .nan := rfl

theorem FVal.add_fin_nan (a : ℚ) : FVal.add (.fin a) .nan = .nan := rfl

theorem FVal.sub_nan_left (v : FVal) : FVal.sub .nan v = .nan := by cases v <;> rfl

theorem npModF_fin_nan (t : ℚ) : npModF (.fin t) .nan = .nan := rfl

theorem npModF_fin_zero (t : ℚ) : npModF (.fin t) (.fin 0) = .nan := by
  simp [npModF]

theorem labelOf_nan : labelOf FVal.nan = "uncertain" := rfl

theorem labelOf_fin_human {c : ℚ} (h1 : ¬ (6 / 10 : ℚ) ≤ c) (h2 : c ≤ 4 / 10) :
    labelOf (.fin c) = "human" := by
  simp [labelOf, FVal.leb_fin, h1, h2]

/-- When the cv is infinite, the one-sided max in the cv score clamps the
resulting negative infinity to exactly 0. -/
theorem cvScoreOf_of_inf {beats : List ℚ} (h : cvOf beats = FVal.inf) :
    cvScoreOf beats = FVal.fin 0 := by
  unfold cvScoreOf
  rw [h, FVal.sub_fin_inf, FVal.div_ninf_fin _ (by norm_num), pyMax_fin_ninf]

/-- When the beat period is NaN or zero, every per-beat grid distance is NaN
(mirroring numpy's `np.mod(x, 0) = nan` propagation). -/
theorem secDistOf_nan {beats : List ℚ} (s : ℕ) (t : ℚ)
    (h : meanIbi beats = FVal.nan ∨ meanIbi beats = FVal.fin 0) :
    secDistOf beats s t = FVal.nan := by
  unfold secDistOf
  dsimp only
  have hphase : FVal.div (npModF (FVal.fin t) (meanIbi beats)) (meanIbi beats) =
      FVal.nan := by
    rcases h with h | h <;> rw [h]
    · rfl
    · rw [npModF_fin_zero]; rfl
  rw [hphase]
  have hmap : ((gridPhases s).map
        (fun g => FVal.abs (FVal.sub FVal.nan (FVal.fin g)))) =
      (gridPhases s).map (fun _ => FVal.nan) := by
    refine List.map_congr_left ?_
    intro g _
    rw [FVal.sub_nan_left]
    rfl
  rw [hmap]
  have hred : npMinReduce ((gridPhases s).map (fun _ => FVal.nan)) = FVal.nan := by
    cases hg : (gridPhases s).map (fun _ => FVal.nan) with
    | nil => rfl
    | cons y ys =>
        have hy : y = FVal.nan := by
          have := List.mem_map.mp (hg ▸ List.mem_cons_self y ys)
          rcases this with ⟨g, _, hgy⟩
          exact hgy.symm
        rw [hy]
        exact npMinReduce_nan_head ys
  rw [hred, FVal.sub_fin_nan]
  rcases h with h | h <;> rw [h] <;> rfl

theorem countP_all_false {α : Type} (p : α → Bool) (l : List α)
    (h : ∀ a ∈ l, p a = false) : l.countP p = 0 := by
  induction l with
  | nil => rfl
  | cons x xs ih =>
      rw [List.countP_cons, h x (List.mem_cons_self _ _)]
      simpa using ih (fun a ha => h a (List.mem_cons_of_mem _ ha))

theorem npDiff_cons₂ (a b : ℚ) (l : List ℚ) :
    npDiff (a :: b :: l) = (b - a) :: npDiff (b :: l) := rfl

theorem npDiff_replicate (n : ℕ) (t : ℚ) :
    npDiff (List.replicate n t) = List.replicate (n - 1) 0 := by
  induction n with
  | zero => rfl
  | succ k ih =>
      cases k with
      | zero => rfl
      | succ j =>
          have h2 : List.replicate (j + 2) t = t :: t :: List.replicate j t := rfl
          have h1 : List.replicate (j + 1) t = t :: List.replicate j t := rfl
          rw [h2, npDiff_cons₂, ← h1, ih]
          rw [sub_self]
          rfl

/-- The mean inter-beat interval of a constant beat list is NaN (0 or 1
beats) or exactly 0. -/
theorem meanIbi_replicate (n : ℕ) (t : ℚ) :
    meanIbi (List.replicate n t) = FVal.nan ∨
      meanIbi (List.replicate n t) = FVal.fin 0 := by
  unfold meanIbi
  rw [npDiff_replicate]
  cases hk : n - 1 with
  | zero => exact Or.inl rfl
  | succ j =>
      refine Or.inr ?_
      rw [npMean_of_ne_nil (by simp [List.replicate])]
      rw [List.sum_replicate, smul_zero, zero_div]

/-- Claim C9: for a beat list of identical timestamps whose length passes the
guard (with a positive grid), the function returns normally with beat_cv equal
to the modelled infinity, no bpm, and a label that is "human" or "uncertain",
never "clicktrack". -/
theorem claim_C9 (n : ℕ) (t : ℚ) (s : ℕ) (tol : ℚ) (m : ℕ)
    (hm : m ≤ n) (hs : 0 < s) :
    ∃ r, detect_rhythm_timing_from_beats (List.replicate n t) s tol m = some r ∧
      r.beat_cv = some FVal.inf ∧ r.bpm = none ∧
      (r.label = "human" ∨ r.label = "uncertain") := by
  have hguard : ¬ (List.replicate n t).length < m := by
    rw [List.length_replicate]; omega
  have hltb : (FVal.fin 0).ltb (meanIbi (List.replicate n t)) = false := by
    rcases meanIbi_replicate n t with h | h <;> rw [h]
    · rfl
    · rw [FVal.ltb_fin]
      exact decide_eq_false (lt_irrefl 0)
  have hcv : cvOf (List.replicate n t) = FVal.inf := by
    unfold cvOf
    rw [hltb]
    simp
  have hbpm : bpmOf (List.replicate n t) = none := by
    unfold bpmOf
    rw [hltb]
    simp
  have hmain : detect_rhythm_timing_from_beats (List.replicate n t) s tol m =
      some ⟨labelOf (confidenceOf (List.replicate n t) s tol),
        confidenceOf (List.replicate n t) s tol,
        reasonOf (List.replicate n t) s tol,
        bpmOf (List.replicate n t),
        some (cvOf (List.replicate n t)),
        some (quantScoreOf (List.replicate n t) s tol),
        (List.replicate n t).length⟩ := by
    unfold detect_rhythm_timing_from_beats
    rw [if_neg hguard, if_neg (by omega : ¬ s = 0)]
  have hcvs : cvScoreOf (List.replicate n t) = FVal.fin 0 := cvScoreOf_of_inf hcv
  refine ⟨_, hmain, congrArg some hcv, hbpm, ?_⟩
  show labelOf (confidenceOf (List.replicate n t) s tol) = "human" ∨
    labelOf (confidenceOf (List.replicate n t) s tol) = "uncertain"
  cases n with
  | zero =>
      refine Or.inr ?_
      have hconf : confidenceOf (List.replicate 0 t) s tol = FVal.nan := by
        unfold confidenceOf combinedOf
        rw [hcvs]
        have hq : quantScoreOf (List.replicate 0 t) s tol = FVal.nan := rfl
        rw [hq, FVal.mul_fin, FVal.mul_fin_nan, FVal.add_fin_nan, npClip_nan_eq]
      rw [hconf, labelOf_nan]
  | succ k =>
      refine Or.inl ?_
      have hsec : ∀ x, (secDistOf (List.replicate (k + 1) t) s x).leb (FVal.fin tol) =
          false := by
        intro x
        rw [secDistOf_nan s x (meanIbi_replicate (k + 1) t)]
        rfl
      have hq : quantScoreOf (List.replicate (k + 1) t) s tol = FVal.fin 0 := by
        have hrep : List.replicate (k + 1) t = t :: List.replicate k t := rfl
        rw [hrep]
        unfold quantScoreOf
        rw [← hrep, countP_all_false _ _ (fun a _ => hsec a)]
        norm_num
      have hconf : confidenceOf (List.replicate (k + 1) t) s tol = FVal.fin 0 := by
        unfold confidenceOf combinedOf
        rw [hcvs, hq, FVal.mul_fin, FVal.mul_fin, FVal.add_fin, npClip_fin_eq]
        norm_num
      rw [hconf]
      exact labelOf_fin_human (by norm_num) (by norm_num)

/-- Witness for claim C9 at eight identical timestamps with the default
parameters. -/
theorem claim_C9_witness :
    ∃ r, detect_rhythm_timing_from_beats (List.replicate 8 (2 : ℚ)) 16 (1 / 100) 8 =
        some r ∧
      r.beat_cv = some FVal.inf ∧ r.bpm = none ∧
      (r.label = "human" ∨ r.label = "uncertain") :=
  claim_C9 8 2 16 (1 / 100) 8 (by decide) (by decide)

/-- Claim C10: past the guard, a non-positive mean inter-beat interval (all
timestamps equal, or decreasing) forces cv to infinity, hence cv_score 0,
confidence 0.4 * quant_score which is at most 0.4, label exactly "human",
no bpm, and beat_cv equal to the modelled infinity. -/
theorem claim_C10 (beats : List ℚ) (s : ℕ) (tol : ℚ) (m : ℕ) (μ : ℚ)
    (hm : m ≤ beats.length) (hs : 0 < s)
    (hμ : meanIbi beats = FVal.fin μ) (hneg : μ ≤ 0) :
    ∃ r q, detect_rhythm_timing_from_beats beats s tol m = some r ∧
      r.quant_score = some (FVal.fin q) ∧
      r.label = "human" ∧
      r.confidence = FVal.fin (4 / 10 * q) ∧ 4 / 10 * q ≤ 4 / 10 ∧
      r.bpm = none ∧ r.beat_cv = some FVal.inf := by
  have hne : beats ≠ [] := by
    intro hnil
    subst hnil
    exact FVal.noConfusion hμ
  have hguard : ¬ beats.length < m := by omega
  have hltb : (FVal.fin 0).ltb (meanIbi beats) = false := by
    rw [hμ, FVal.ltb_fin]
    exact decide_eq_false (not_lt.mpr hneg)
  have hcv : cvOf beats = FVal.inf := by
    unfold cvOf
    rw [hltb]
    simp
  have hbpm : bpmOf beats = none := by
    unfold bpmOf
    rw [hltb]
    simp
  have hcvs : cvScoreOf beats = FVal.fin 0 := cvScoreOf_of_inf hcv
  rcases quantScoreOf_fin beats s tol hne with ⟨q, hq, hq0, hq1⟩
  have hconf : confidenceOf beats s tol = FVal.fin (4 / 10 * q) := by
    unfold confidenceOf combinedOf
    rw [hcvs, hq, FVal.mul_fin, FVal.mul_fin, FVal.add_fin, npClip_fin_eq]
    have hv : (6 / 10 * 0 + 4 / 10 * q : ℚ) = 4 / 10 * q := by ring
    rw [hv]
    have hub : (4 / 10 * q : ℚ) ≤ 1 := by nlinarith
    have hlb : (0 : ℚ) ≤ 4 / 10 * q := by nlinarith
    rw [max_eq_left hlb, min_eq_left hub]
  have hmain : detect_rhythm_timing_from_beats beats s tol m =
      some ⟨labelOf (confidenceOf beats s tol), confidenceOf beats s tol,
        reasonOf beats s tol, bpmOf beats, some (cvOf beats),
        some (quantScoreOf beats s tol), beats.length⟩ := by
    unfold detect_rhythm_timing_from_beats
    rw [if_neg hguard, if_neg (by omega : ¬ s = 0)]
  refine ⟨_, q, hmain, congrArg some hq, ?_, hconf, by nlinarith, hbpm,
    congrArg some hcv⟩
  show labelOf (confidenceOf beats s tol) = "human"
  rw [hconf]
  exact labelOf_fin_human (by nlinarith) (by nlinarith)

set_option maxRecDepth 8000 in
/-- Witness for claim C10 at a strictly decreasing beat list (mean inter-beat
interval exactly -1) with the default parameters. -/
theorem claim_C10_witness :
    ∃ r q, detect_rhythm_timing_from_beats [7, 6, 5, 4, 3, 2, 1, 0] 16 (1 / 100) 8 =
        some r ∧
      r.quant_score = some (FVal.fin q) ∧
      r.label = "human" ∧
      r.confidence = FVal.fin (4 / 10 * q) ∧ 4 / 10 * q ≤ 4 / 10 ∧
      r.bpm = none ∧ r.beat_cv = some FVal.inf :=
  claim_C10 [7, 6, 5, 4, 3, 2, 1, 0] 16 (1 / 100) 8 (-1) (by decide) (by decide)
    (by with_unfolding_all rfl) (by norm_num)

/-- The mad of a nonempty interval list is finite and nonnegative (it is a
median of absolute deviations). -/
theorem madIbi_fin_nonneg {beats : List ℚ} (h : npDiff beats ≠ []) :
    ∃ d, madIbi beats = FVal.fin d ∧ 0 ≤ d := by
  rcases npMedian_fin_of_ne_nil h with ⟨e, he⟩
  unfold madIbi
  rw [he]
  refine npMedian_nonneg ?_ ?_
  · simpa using h
  · intro x hx
    rcases List.mem_map.mp hx with ⟨y, _, rfl⟩
    exact abs_nonneg _

/-- With a positive mean inter-beat interval the cv is finite, equal to
`1.4826 * mad / mean`, and nonnegative. -/
theorem cvOf_pos {beats : List ℚ} {μ : ℚ}
    (hμ : meanIbi beats = FVal.fin μ) (hpos : 0 < μ) :
    ∃ c d, madIbi beats = FVal.fin d ∧ 0 ≤ d ∧ cvOf beats = FVal.fin c ∧
      c = 14826 / 10000 * d / μ ∧ 0 ≤ c := by
  have hdiff : npDiff beats ≠ [] := npMean_fin_ne_nil hμ
  rcases madIbi_fin_nonneg hdiff with ⟨d, hd, hd0⟩
  refine ⟨14826 / 10000 * d / μ, d, hd, hd0, ?_, rfl,
    div_nonneg (mul_nonneg (by norm_num) hd0) (le_of_lt hpos)⟩
  unfold cvOf
  rw [hμ, FVal.ltb_fin, decide_eq_true hpos, if_pos rfl, hd, FVal.mul_fin,
    FVal.div_fin _ _ (ne_of_gt hpos)]

/-- Claim C5: past the guard, with a finite (positive-mean) cv, the returned
confidence equals `clamp(0.6 * clamp((0.02 - cv) / 0.02, 0, 1)
+ 0.4 * quant_score, 0, 1)`; the code's one-sided `max(0, .)` coincides with
the claimed two-sided clamp because the cv is never negative. -/
theorem claim_C5 (beats : List ℚ) (s : ℕ) (tol : ℚ) (m : ℕ) (μ : ℚ)
    (hm : m ≤ beats.length) (hs : 0 < s)
    (hμ : meanIbi beats = FVal.fin μ) (hpos : 0 < μ) :
    ∃ c q, cvOf beats = FVal.fin c ∧ quantScoreOf beats s tol = FVal.fin q ∧
      confidenceOf beats s tol =
        FVal.fin (min 1 (max 0
          (6 / 10 * min 1 (max 0 ((2 / 100 - c) / (2 / 100))) + 4 / 10 * q))) := by
  have hne : beats ≠ [] := by
    intro hnil
    subst hnil
    exact FVal.noConfusion hμ
  rcases cvOf_pos hμ hpos with ⟨c, d, hd, hd0, hcv, hceq, hc0⟩
  rcases quantScoreOf_fin beats s tol hne with ⟨q, hq, hq0, hq1⟩
  refine ⟨c, q, hcv, hq, ?_⟩
  have hX : (2 / 100 - c) / (2 / 100) ≤ (1 : ℚ) := by
    rw [div_le_one (by norm_num)]
    linarith
  have hcvs : cvScoreOf beats = FVal.fin (max 0 ((2 / 100 - c) / (2 / 100))) := by
    unfold cvScoreOf
    rw [hcv, FVal.sub_fin, FVal.div_fin _ _ (by norm_num)]
    unfold pyMax
    rw [FVal.ltb_fin]
    by_cases hx : (0 : ℚ) < (2 / 100 - c) / (2 / 100)
    · rw [decide_eq_true hx, if_pos rfl, max_eq_right (le_of_lt hx)]
    · rw [decide_eq_false hx]
      simp only [Bool.false_eq_true, if_false]
      rw [max_eq_left (not_lt.mp hx)]
  unfold confidenceOf combinedOf
  rw [hcvs, hq, FVal.mul_fin, FVal.mul_fin, FVal.add_fin, npClip_fin_eq]
  have hmm : min 1 (max 0 ((2 / 100 - c) / (2 / 100))) =
      max 0 ((2 / 100 - c) / (2 / 100)) :=
    min_eq_right (max_le (by norm_num) hX)
  rw [hmm, max_comm _ (0 : ℚ), min_comm _ (1 : ℚ)]

set_option maxRecDepth 8000 in
/-- Witness for claim C5 at the integer beat grid 0..7 (mean interval 1). -/
theorem claim_C5_witness :
    ∃ c q, cvOf [0, 1, 2, 3, 4, 5, 6, 7] = FVal.fin c ∧
      quantScoreOf [0, 1, 2, 3, 4, 5, 6, 7] 16 (1 / 100) = FVal.fin q ∧
      confidenceOf [0, 1, 2, 3, 4, 5, 6, 7] 16 (1 / 100) =
        FVal.fin (min 1 (max 0
          (6 / 10 * min 1 (max 0 ((2 / 100 - c) / (2 / 100))) + 4 / 10 * q))) :=
  claim_C5 [0, 1, 2, 3, 4, 5, 6, 7] 16 (1 / 100) 8 1 (by decide) (by decide)
    (by with_unfolding_all rfl) (by norm_num)

theorem foldl_minF_fin (xs : List ℚ) (a : ℚ) :
    (xs.map FVal.fin).foldl FVal.minF (FVal.fin a) = FVal.fin (xs.foldl min a) := by
  induction xs generalizing a with
  | nil => rfl
  | cons x xs ih =>
      rw [List.map_cons, List.foldl_cons, FVal.minF_fin, List.foldl_cons]
      exact ih _

theorem npMinReduce_map_fin {l : List ℚ} (h : l ≠ []) :
    npMinReduce (l.map FVal.fin) = FVal.fin (minListQ l) := by
  cases l with
  | nil => exact absurd rfl h
  | cons x xs =>
      rw [List.map_cons]
      exact foldl_minF_fin xs x

theorem countP_congr_own {α : Type} (p p' : α → Bool) (l : List α)
    (h : ∀ a ∈ l, p a = p' a) : l.countP p = l.countP p' := by
  induction l with
  | nil => rfl
  | cons x xs ih =>
      rw [List.countP_cons, List.countP_cons, h x (List.mem_cons_self _ _),
        ih (fun a ha => h a (List.mem_cons_of_mem _ ha))]

theorem quantScoreOf_eq {beats : List ℚ} (s : ℕ) (tol : ℚ) (h : beats ≠ []) :
    quantScoreOf beats s tol =
      FVal.fin (((beats.countP
          (fun t => (secDistOf beats s t).leb (FVal.fin tol))) : ℚ)
        / (beats.length : ℚ)) := by
  cases beats with
  | nil => exact absurd rfl h
  | cons x xs => rfl

/-- Amended claim C1: past the guard with a positive mean inter-beat
interval, the per-beat fractional distance is `min d (1 - d)` where `d` is
the plain minimum over grid points of `|phase - g|` — the wrap correction is
applied after choosing the nearest grid point by absolute distance, not
inside the minimum — and quant_score is the fraction of beats whose such
distance times the beat period is at most the tolerance. -/
theorem claim_C1_amended (beats : List ℚ) (s : ℕ) (tol : ℚ) (m : ℕ) (T : ℚ)
    (hm : m ≤ beats.length) (hs : 0 < s)
    (hT : meanIbi beats = FVal.fin T) (hpos : 0 < T) :
    quantScoreOf beats s tol = FVal.fin (amendedQuantScore beats s tol T) := by
  have hne : beats ≠ [] := by
    intro hnil
    subst hnil
    exact FVal.noConfusion hT
  have hTne : T ≠ 0 := ne_of_gt hpos
  have hgrid : gridPhases s ≠ [] := by
    have hlen : (gridPhases s).length = s := by
      unfold gridPhases
      rw [List.length_map, List.length_range]
    intro hg
    rw [hg] at hlen
    simp at hlen
    omega
  have hsec : ∀ x, secDistOf beats s x =
      FVal.fin (amendedFracDist s ((x - T * (⌊x / T⌋ : ℚ)) / T) * T) := by
    intro x
    unfold secDistOf
    dsimp only
    rw [hT]
    have hmod : npModF (FVal.fin x) (FVal.fin T) =
        FVal.fin (x - T * (⌊x / T⌋ : ℚ)) := by
      simp [npModF, hTne]
    rw [hmod, FVal.div_fin _ _ hTne]
    have hmap : (gridPhases s).map
        (fun g => FVal.abs (FVal.sub
          (FVal.fin ((x - T * (⌊x / T⌋ : ℚ)) / T)) (FVal.fin g))) =
        ((gridPhases s).map
          (fun g => |(x - T * (⌊x / T⌋ : ℚ)) / T - g|)).map FVal.fin := by
      rw [List.map_map]
      refine List.map_congr_left ?_
      intro g _
      rfl
    rw [hmap, npMinReduce_map_fin (by simpa using hgrid),
      FVal.sub_fin, FVal.minF_fin, FVal.mul_fin]
    rfl
  rw [quantScoreOf_eq s tol hne]
  have hcount : beats.countP (fun t => (secDistOf beats s t).leb (FVal.fin tol)) =
      beats.countP (fun t =>
        decide (amendedFracDist s ((t - T * (⌊t / T⌋ : ℚ)) / T) * T ≤ tol)) := by
    refine countP_congr_own _ _ _ ?_
    intro a _
    rw [hsec a, FVal.leb_fin]
  rw [hcount]
  rfl

set_option maxRecDepth 8000 in
/-- Witness for the amended claim C1 at the integer beat grid 0..7. -/
theorem claim_C1_amended_witness :
    quantScoreOf [0, 1, 2, 3, 4, 5, 6, 7] 16 (1 / 100) =
      FVal.fin (amendedQuantScore [0, 1, 2, 3, 4, 5, 6, 7] 16 (1 / 100) 1) :=
  claim_C1_amended [0, 1, 2, 3, 4, 5, 6, 7] 16 (1 / 100) 8 1 (by decide) (by decide)
    (by with_unfolding_all rfl) (by norm_num)

end SongshareRhythm
